import Mathlib

/-!
Verification of the context-extraction and excerpt-highlighting core of the
Wiki-bot program (src/main.py).  Strings are modelled as `List Char`; Python
string primitives (slicing, `find`, `in`, `strip`, `replace`, the
non-overlapping scan of `re.finditer` on a literal pattern) are embedded as
executable Lean functions, and the functions `generate_context`,
`generate_context_highlighted`, `generate_excerpt` are translated directly
from the source.  `re.IGNORECASE` matching is modelled by lower-casing both
pattern and subject; the pattern is treated as a literal string (regex
metacharacter behaviour is outside the scope of the claims).
-/

/-- Lower-casing used to model `re.IGNORECASE`. -/
def pyLower (s : List Char) : List Char := s.map Char.toLower

/-- The characters Python's `str.strip()` removes. -/
def isSpaceChar (c : Char) : Bool :=
  c = ' ' || c = '\t' || c = '\n' || c = '\r' || c = '\x0b' || c = '\x0c'

/-- Python `s.strip()`. -/
def pyStrip (s : List Char) : List Char :=
  ((s.dropWhile isSpaceChar).reverse.dropWhile isSpaceChar).reverse

/-- `s.replace("\n", " ")` from the source. -/
def replNl (s : List Char) : List Char :=
  s.map (fun c => if c = '\n' then ' ' else c)

/-- Index of the first occurrence of `pat` in a list, if any
(the index returned by Python `str.find` when non-negative). -/
def firstIdxOf (pat : List Char) : List Char → Option Nat
  | [] => if pat.isPrefixOf [] then some 0 else none
  | c :: t => if pat.isPrefixOf (c :: t) then some 0 else (firstIdxOf pat t).map (· + 1)

/-- Python's `in` operator on strings (substring test). -/
def isSubstring (pat s : List Char) : Bool := (firstIdxOf pat s).isSome

/-- Python `s.find(pat)`: first index, or `-1` when absent. -/
def pyFind (pat s : List Char) : Int :=
  match firstIdxOf pat s with
  | some i => (i : Int)
  | none => -1

/-- Normalisation of one slice bound, as Python does it: negative indices
count from the end and everything is clamped into `[0, n]`. -/
def pyIndex (n : Nat) (i : Int) : Nat :=
  if i < 0 then (i + n).toNat else min i.toNat n

/-- Python slice `s[a:b]`. -/
def pySlice (s : List Char) (a b : Int) : List Char :=
  (s.take (pyIndex s.length b)).drop (pyIndex s.length a)

/-- Python `s.replace(pat, rep)` (all non-overlapping occurrences, left to
right; an empty pattern matches at every position, including the end).
`skip` counts characters of a match that remain to be consumed. -/
def replaceAllAux (pat rep : List Char) : List Char → Nat → List Char
  | [], skip => if skip = 0 && pat.isEmpty then rep else []
  | c :: t, skip =>
    if skip ≠ 0 then replaceAllAux pat rep t (skip - 1)
    else if pat.isEmpty then rep ++ c :: replaceAllAux pat rep t 0
    else if pat.isPrefixOf (c :: t) then rep ++ replaceAllAux pat rep t (pat.length - 1)
    else c :: replaceAllAux pat rep t 0

/-- Python `s.replace(pat, rep)`. -/
def replaceAll (pat rep s : List Char) : List Char := replaceAllAux pat rep s 0

/-- The non-overlapping left-to-right scan for a literal pattern: the
behaviour of `re.finditer` on a metacharacter-free pattern (an empty pattern
matches at every position, including the end, advancing one character). -/
def scanMatches (pat : List Char) : List Char → Nat → Nat → List Nat
  | [], i, skip => if skip = 0 && pat.isEmpty then [i] else []
  | c :: t, i, skip =>
    if skip ≠ 0 then scanMatches pat t (i + 1) (skip - 1)
    else if pat.isEmpty then i :: scanMatches pat t (i + 1) 0
    else if pat.isPrefixOf (c :: t) then i :: scanMatches pat t (i + 1) (pat.length - 1)
    else scanMatches pat t (i + 1) 0

/-- Non-overlapping literal occurrences, left to right. -/
def findMatches (pat s : List Char) : List Nat := scanMatches pat s 0 0

/-! ### A model of `re.finditer` on a regex fragment

The source (main.py:87) passes the model-produced search term to `re.finditer`
as a regular expression, not a literal string.  The fragment modelled here is:
a pattern is a sequence of atoms, each a non-metacharacter literal optionally
followed by `*` (greedy, with backtracking).  On this fragment the model agrees
with Python's `re`; in particular every metacharacter-free term is matched as
its literal text.  Patterns outside the fragment (any other metacharacter, or
a misplaced repeat such as `*a` or `a**`, on which `re` ranges over its full
syntax or raises `re.error`) are rejected by the parser. -/

/-- The characters with special meaning in Python regular expressions. -/
def isRegexMeta (c : Char) : Bool :=
  c = '.' || c = '^' || c = '$' || c = '*' || c = '+' || c = '?' ||
  c = '\x7b' || c = '\x7d' || c = '[' || c = ']' || c = '\\' || c = '|' ||
  c = '(' || c = ')'

/-- The term contains no regex metacharacter, so `re` matches it as a literal
string.  Stated over the lowered term, which is how the scan consumes it;
lower-casing fixes every non-letter and maps letters to letters, so this holds
exactly when the term itself is metacharacter-free. -/
def isRegexLiteral (term : List Char) : Bool :=
  (pyLower term).all (fun c => !(isRegexMeta c))

/-- An atom of the modelled fragment: a literal character, marked `true` when
it carries a `*` quantifier. -/
def parsePattern : List Char → Option (List (Char × Bool))
  | [] => some []
  | [c] => if isRegexMeta c then none else some [(c, false)]
  | c :: r :: rest =>
    if isRegexMeta c then none
    else if r = '*' then (parsePattern rest).map (fun atoms => (c, true) :: atoms)
    else (parsePattern (r :: rest)).map (fun atoms => (c, false) :: atoms)

/-- Greedy matching of a starred atom: try the longest run first and backtrack
until the rest of the pattern matches. -/
def tryStar (matchRest : List Char → Option Nat) (s : List Char) : Nat → Option Nat
  | 0 => matchRest s
  | k + 1 =>
    match matchRest (s.drop (k + 1)) with
    | some L => some (k + 1 + L)
    | none => tryStar matchRest s k

/-- Length of the match of an atom sequence at the head of `s`, if any
(leftmost-greedy with backtracking, as Python's `re` behaves on this
fragment). -/
def matchAtoms : List (Char × Bool) → List Char → Option Nat
  | [] => fun _ => some 0
  | (c, star) :: rest =>
    let f := matchAtoms rest
    fun s =>
      if star then tryStar f s ((s.takeWhile (fun x => x = c)).length)
      else
        match s with
        | [] => none
        | x :: xs => if x = c then (f xs).map (· + 1) else none

/-- The scan of `re.finditer`: at each position try a match; record its start;
resume at its end, or one character later when the match was zero-width
(Python ≥ 3.7 semantics, where a zero-width match is also allowed immediately
after a non-empty one). -/
def reScanAux (atoms : List (Char × Bool)) : List Char → Nat → Nat → List Nat
  | [], i, skip =>
    if skip = 0 then
      match matchAtoms atoms [] with
      | some _ => [i]
      | none => []
    else []
  | c :: t, i, skip =>
    if skip ≠ 0 then reScanAux atoms t (i + 1) (skip - 1)
    else
      match matchAtoms atoms (c :: t) with
      | none => reScanAux atoms t (i + 1) 0
      | some 0 => i :: reScanAux atoms t (i + 1) 0
      | some (L + 1) => i :: reScanAux atoms t (i + 1) L

/-- Start offsets produced by `re.finditer` for a pattern of the fragment. -/
def reFinditer (atoms : List (Char × Bool)) (s : List Char) : List Nat :=
  reScanAux atoms s 0 0

/-- The atom sequence of a metacharacter-free pattern: every character a plain
literal. -/
def plainAtoms (l : List Char) : List (Char × Bool) := l.map (fun c => (c, false))

/-! ### The program (translated from src/main.py) -/

/-- A resolved Wikipedia page (the fields `generate_context` uses). -/
structure Page where
  content : List Char
  summary : List Char

def CONTEXT_CHAR_LIMIT : Nat := 4000

def CONTEXT_HALF_SIZE : Nat := 300

def CONTEXT_DIVIDER : List Char := [' ', '[', '.', '.', '.', ']', ' ']

def BOLD_SEQUENCE_START : List Char := ['\x1b', '[', '1', 'm']

def BOLD_SEQUENCE_END : List Char := ['\x1b', '[', '0', 'm']

/-- Line 87-88 of the source: the recorded match offsets,
`[m.start() for m in re.finditer(ctrlf_term, page.content, re.IGNORECASE)]`.
The term is a regex pattern; case-insensitivity is modelled by lower-casing
both sides.  Terms in the modelled fragment (literals, optionally starred) go
through the `re.finditer` model; a term outside the fragment falls back to
literal matching here and is excluded, by hypothesis, from every claim about
the match list. -/
def contextMatches (content term : List Char) : List Nat :=
  match parsePattern (pyLower term) with
  | some atoms => reFinditer atoms (pyLower content)
  | none => findMatches (pyLower term) (pyLower content)

/-- Lines 95-96 of the source: the excerpt window around one match offset. -/
def contextWindow (content : List Char) (m : Nat) : List Char :=
  if m > CONTEXT_HALF_SIZE then
    pySlice content ((m : Int) - (CONTEXT_HALF_SIZE : Int)) ((m : Int) + (CONTEXT_HALF_SIZE : Int))
  else
    pySlice content 0 ((m : Int) + (m : Int))

/-- Lines 90-101 of the source: the accepting loop over match offsets.
The loop stops once three excerpts are accepted; the (untrimmed) window is
skipped when it occurs in the summary; accepted windows are stripped. -/
def acceptLoop (content summary : List Char) : List Nat → List (List Char) → List (List Char)
  | [], acc => acc
  | m :: rest, acc =>
    if acc.length = 3 then acc
    else if isSubstring (contextWindow content m) summary then
      acceptLoop content summary rest acc
    else
      acceptLoop content summary rest (acc ++ [pyStrip (contextWindow content m)])

/-- The `top_three_contexts` list computed by `generate_context`. -/
def topThreeContexts (page : Page) (term : List Char) : List (List Char) :=
  acceptLoop page.content page.summary (contextMatches page.content term) []

/-- Lines 86-104 of the source: `generate_context`. -/
def generate_context (page : Page) (term : List Char) : List Char :=
  (List.intercalate CONTEXT_DIVIDER
      (pyStrip page.summary :: topThreeContexts page term)).take CONTEXT_CHAR_LIMIT

/-- Lines 139-149 of the source: `generate_context_highlighted`. -/
def generate_context_highlighted (context : List Char) (excerpt : Option (List Char)) : List Char :=
  match excerpt with
  | none => replNl context
  | some e =>
    if isSubstring e context then
      let ch :=
        if e.isEmpty then context
        else replaceAll e (BOLD_SEQUENCE_START ++ e ++ BOLD_SEQUENCE_END) context
      let m := pyFind e ch
      let abridged :=
        if m > 200 then pySlice ch (m - 200) (m + e.length + 200)
        else pySlice ch 0 (m + e.length + 200)
      replNl abridged
    else replNl context

/-- Line 52 of the source: `sanitize_response`. -/
def sanitize_response (response : List Char) : List Char :=
  ((pyStrip response).filter (fun c => c ≠ '\n')).filter (fun c => c ≠ '"')

/-- Lines 121-136 of the source: `generate_excerpt`, taking the raw model
output (an input from the external completion service) and the context. -/
def generate_excerpt (modelText context : List Char) : Option (List Char) :=
  let excerpt := sanitize_response modelText
  if isSubstring excerpt context then some excerpt else none

/-! ### Definitions written from the spec's words, for the refinement claims -/

/-- Spec words for C5: the starting offset of every occurrence, in left-to-right
order.  `i` is the offset of the head of the remaining list. -/
def allOccAux (pat : List Char) (i : Nat) : List Char → List Nat
  | [] => if pat.isPrefixOf [] then [i] else []
  | c :: t => (if pat.isPrefixOf (c :: t) then [i] else []) ++ allOccAux pat (i + 1) t

/-- Every starting offset at which `pat` occurs in `s`, in order. -/
def allOccurrences (pat s : List Char) : List Nat := allOccAux pat 0 s

/-- Spec words for C5: every case-insensitive occurrence of the search term,
taken as a literal string, in the page body. -/
def caseInsensitiveOccurrences (content term : List Char) : List Nat :=
  allOccurrences (pyLower term) (pyLower content)

/-- Greedy left-to-right selection of non-overlapping occurrences from an
ascending list of offsets: keep an offset when it starts at or after the end
of the previously kept occurrence (a zero-length match advances by one). -/
def pickGreedy (L : Nat) : Nat → List Nat → List Nat
  | _, [] => []
  | bound, i :: rest =>
    if bound ≤ i then i :: pickGreedy L (i + max L 1) rest
    else pickGreedy L bound rest

/-- The accepting loop as claim C2 states it: the window is trimmed first and
the trimmed excerpt is tested for containment in the summary. -/
def acceptLoopTrimFirst (content summary : List Char) : List Nat → List (List Char) → List (List Char)
  | [], acc => acc
  | m :: rest, acc =>
    if acc.length = 3 then acc
    else if isSubstring (pyStrip (contextWindow content m)) summary then
      acceptLoopTrimFirst content summary rest acc
    else
      acceptLoopTrimFirst content summary rest (acc ++ [pyStrip (contextWindow content m)])

/-- `generate_context` as claim C2 states it (trim before the containment test). -/
def generate_context_claimOrder (page : Page) (term : List Char) : List Char :=
  (List.intercalate CONTEXT_DIVIDER
      (pyStrip page.summary ::
        acceptLoopTrimFirst page.content page.summary
          (contextMatches page.content term) [])).take CONTEXT_CHAR_LIMIT

/-- The highlighting procedure as claim C3 states it: replace every occurrence
of the excerpt by the marked excerpt (global replacement, also for the empty
excerpt), then take the ±200 window (mirrored below 200) around the first
occurrence in the post-replacement string. -/
def claimHighlight (context e : List Char) : List Char :=
  let marked := replaceAll e (BOLD_SEQUENCE_START ++ e ++ BOLD_SEQUENCE_END) context
  let m := pyFind e marked
  let abridged :=
    if m < 200 then pySlice marked 0 (m + e.length + 200)
    else pySlice marked (m - 200) (m + e.length + 200)
  replNl abridged

/-! ### Helper lemmas about the string primitives -/

theorem isPrefixOf_iff (l₁ l₂ : List Char) : l₁.isPrefixOf l₂ = true ↔ l₁ <+: l₂ :=
  List.isPrefixOf_iff_prefix

theorem firstIdxOf_isOcc {pat s : List Char} {q : Nat}
    (h : firstIdxOf pat s = some q) : pat <+: s.drop q := by
  induction s generalizing q with
  | nil =>
    simp only [firstIdxOf] at h
    split at h
    · rename_i hp
      cases h
      exact (isPrefixOf_iff _ _).mp hp
    · cases h
  | cons c t ih =>
    simp only [firstIdxOf] at h
    split at h
    · rename_i hp
      cases h
      exact (isPrefixOf_iff _ _).mp hp
    · rcases Option.map_eq_some'.mp h with ⟨q', hq', rfl⟩
      simpa using ih hq'

theorem firstIdxOf_least {pat s : List Char} {q : Nat}
    (h : firstIdxOf pat s = some q) : ∀ j, pat <+: s.drop j → q ≤ j := by
  induction s generalizing q with
  | nil =>
    intro j _
    simp only [firstIdxOf] at h
    split at h
    · cases h; exact Nat.zero_le j
    · cases h
  | cons c t ih =>
    intro j hj
    simp only [firstIdxOf] at h
    split at h
    · cases h; exact Nat.zero_le j
    · rename_i hp
      rcases Option.map_eq_some'.mp h with ⟨q', hq', rfl⟩
      cases j with
      | zero =>
        simp only [List.drop_zero] at hj
        exact absurd ((isPrefixOf_iff _ _).mpr hj) (by simp [hp])
      | succ j' =>
        simp only [List.drop_succ_cons] at hj
        exact Nat.succ_le_succ (ih hq' j' hj)

theorem firstIdxOf_le_occ {pat s : List Char} {j : Nat}
    (h : pat <+: s.drop j) : ∃ q, firstIdxOf pat s = some q ∧ q ≤ j := by
  induction s generalizing j with
  | nil =>
    have : pat = [] := by
      have := h
      simpa [List.prefix_nil] using List.prefix_nil.mp (by simpa using h)
    subst this
    exact ⟨0, by simp [firstIdxOf, List.isPrefixOf], Nat.zero_le j⟩
  | cons c t ih =>
    by_cases hp : pat.isPrefixOf (c :: t)
    · exact ⟨0, by simp [firstIdxOf, hp], Nat.zero_le j⟩
    · cases j with
      | zero =>
        simp only [List.drop_zero] at h
        exact absurd ((isPrefixOf_iff _ _).mpr h) (by simp [hp])
      | succ j' =>
        simp only [List.drop_succ_cons] at h
        rcases ih h with ⟨q', hq', hle⟩
        exact ⟨q' + 1, by simp [firstIdxOf, hp, hq'], Nat.succ_le_succ hle⟩

theorem isSubstring_iff_occ (pat s : List Char) :
    isSubstring pat s = true ↔ ∃ j, pat <+: s.drop j := by
  constructor
  · intro h
    rcases Option.isSome_iff_exists.mp h with ⟨q, hq⟩
    exact ⟨q, firstIdxOf_isOcc hq⟩
  · rintro ⟨j, hj⟩
    rcases firstIdxOf_le_occ hj with ⟨q, hq, -⟩
    simp [isSubstring, hq]

theorem firstIdxOf_nil_pat (s : List Char) : firstIdxOf [] s = some 0 := by
  cases s <;> simp [firstIdxOf, List.isPrefixOf]

theorem replaceAllAux_cons (pat rep : List Char) (c : Char) (t : List Char) (skip : Nat) :
    replaceAllAux pat rep (c :: t) skip =
      if skip ≠ 0 then replaceAllAux pat rep t (skip - 1)
      else if pat.isEmpty then rep ++ c :: replaceAllAux pat rep t 0
      else if pat.isPrefixOf (c :: t) then rep ++ replaceAllAux pat rep t (pat.length - 1)
      else c :: replaceAllAux pat rep t 0 := rfl

theorem scanMatches_cons (pat : List Char) (c : Char) (t : List Char) (i skip : Nat) :
    scanMatches pat (c :: t) i skip =
      if skip ≠ 0 then scanMatches pat t (i + 1) (skip - 1)
      else if pat.isEmpty then i :: scanMatches pat t (i + 1) 0
      else if pat.isPrefixOf (c :: t) then i :: scanMatches pat t (i + 1) (pat.length - 1)
      else scanMatches pat t (i + 1) 0 := rfl

theorem replaceAllAux_skip_drop {pat : List Char} (rep : List Char) (_hpat : pat ≠ [])
    (s : List Char) : ∀ k, k ≤ s.length →
    replaceAllAux pat rep s k = replaceAllAux pat rep (s.drop k) 0 := by
  induction s with
  | nil =>
    intro k hk
    have hk0 : k = 0 := by simpa using hk
    subst hk0
    simp
  | cons c t ih =>
    intro k hk
    cases k with
    | zero => simp
    | succ k' =>
      rw [replaceAllAux_cons]
      rw [if_pos (by omega : k' + 1 ≠ 0)]
      rw [show k' + 1 - 1 = k' from rfl]
      rw [ih k' (by simpa using hk), List.drop_succ_cons]

theorem scanMatches_skip_drop {pat : List Char} (_hpat : pat ≠ [])
    (s : List Char) : ∀ i k, k ≤ s.length →
    scanMatches pat s i k = scanMatches pat (s.drop k) (i + k) 0 := by
  induction s with
  | nil =>
    intro i k hk
    have hk0 : k = 0 := by simpa using hk
    subst hk0
    simp
  | cons c t ih =>
    intro i k hk
    cases k with
    | zero => simp
    | succ k' =>
      rw [scanMatches_cons]
      rw [if_pos (by omega : k' + 1 ≠ 0)]
      rw [show k' + 1 - 1 = k' from rfl]
      rw [ih (i + 1) k' (by simpa using hk), List.drop_succ_cons]
      congr 1
      omega

theorem isPrefixOf_nil_iff {pat : List Char} : pat.isPrefixOf ([] : List Char) = true ↔ pat = [] := by
  rw [isPrefixOf_iff]
  exact List.prefix_nil

/-- Structure of Python `replace` at the first occurrence of the pattern:
everything before it is copied, the occurrence becomes `rep`, and replacement
continues after the occurrence. -/
theorem replaceAll_first_occ {pat : List Char} (rep : List Char) (hpat : pat ≠ [])
    {s : List Char} {q : Nat} (h : firstIdxOf pat s = some q) :
    replaceAll pat rep s = s.take q ++ rep ++ replaceAll pat rep (s.drop (q + pat.length)) := by
  have hL : 1 ≤ pat.length := by
    cases pat with
    | nil => exact absurd rfl hpat
    | cons a b => simp
  induction s generalizing q with
  | nil =>
    simp only [firstIdxOf] at h
    split at h
    · rename_i hp
      exact absurd (isPrefixOf_nil_iff.mp hp) hpat
    · cases h
  | cons c t ih =>
    simp only [firstIdxOf] at h
    split at h
    · rename_i hp
      cases h
      have hlen : pat.length - 1 ≤ t.length := by
        have := ((isPrefixOf_iff _ _).mp hp).length_le
        simp at this
        omega
      have hemp : pat.isEmpty = false := by
        cases pat with
        | nil => exact absurd rfl hpat
        | cons a b => simp
      show replaceAllAux pat rep (c :: t) 0 = _
      rw [replaceAllAux_cons]
      rw [if_neg (by omega : ¬ (0 : Nat) ≠ 0), if_neg (by simp [hemp]), if_pos hp]
      rw [replaceAllAux_skip_drop rep hpat t (pat.length - 1) hlen]
      have hdrop : (c :: t).drop (0 + pat.length) = t.drop (pat.length - 1) := by
        cases pat with
        | nil => exact absurd rfl hpat
        | cons a b => simp
      rw [hdrop]
      simp [replaceAll]
    · rename_i hp
      rcases Option.map_eq_some'.mp h with ⟨q', hq', rfl⟩
      have hemp : pat.isEmpty = false := by
        cases pat with
        | nil => exact absurd rfl hpat
        | cons a b => simp
      show replaceAllAux pat rep (c :: t) 0 = _
      rw [replaceAllAux_cons]
      rw [if_neg (by omega : ¬ (0 : Nat) ≠ 0), if_neg (by simp [hemp]), if_neg (by simp [hp])]
      show c :: replaceAll pat rep t = _
      rw [ih hq']
      have : (c :: t).drop (q' + 1 + pat.length) = t.drop (q' + pat.length) := by
        rw [show q' + 1 + pat.length = (q' + pat.length) + 1 by omega, List.drop_succ_cons]
      rw [this]
      simp

theorem allOccAux_lower_bound {pat : List Char} :
    ∀ (s : List Char) (i x : Nat), x ∈ allOccAux pat i s → i ≤ x := by
  intro s
  induction s with
  | nil =>
    intro i x hx
    simp only [allOccAux] at hx
    split at hx
    · simp at hx
      omega
    · simp at hx
  | cons c t ih =>
    intro i x hx
    simp only [allOccAux, List.mem_append] at hx
    rcases hx with hx | hx
    · split at hx
      · simp at hx
        omega
      · simp at hx
    · have := ih (i + 1) x hx
      omega

theorem allOccAux_filter_ge {pat : List Char} (hpat : pat ≠ []) :
    ∀ (s : List Char) (i j : Nat), i ≤ j →
    (allOccAux pat i s).filter (fun x => decide (j ≤ x)) = allOccAux pat j (s.drop (j - i)) := by
  intro s
  induction s with
  | nil =>
    intro i j _
    have h1 : pat.isPrefixOf ([] : List Char) = false := by
      cases pat with
      | nil => exact absurd rfl hpat
      | cons a b => rfl
    simp [allOccAux, h1]
  | cons c t ih =>
    intro i j hij
    rcases Nat.eq_or_lt_of_le hij with rfl | hlt
    · rw [Nat.sub_self, List.drop_zero]
      refine List.filter_eq_self.mpr ?_
      intro x hx
      simpa using allOccAux_lower_bound _ i x hx
    · have hdropc : (c :: t).drop (j - i) = t.drop (j - (i + 1)) := by
        rw [show j - i = (j - (i + 1)) + 1 by omega, List.drop_succ_cons]
      rw [hdropc, ← ih (i + 1) j (by omega)]
      simp only [allOccAux, List.filter_append]
      have h2 : ((if pat.isPrefixOf (c :: t) then [i] else []).filter
          (fun x => decide (j ≤ x))) = [] := by
        split
        · simp
          omega
        · simp
      rw [h2, List.nil_append]

theorem pickGreedy_mono_bound {L : Nat} :
    ∀ (xs : List Nat) (b b' : Nat), b ≤ b' → (∀ x ∈ xs, b' ≤ x) →
    pickGreedy L b xs = pickGreedy L b' xs := by
  intro xs
  induction xs with
  | nil => intro b b' _ _; rfl
  | cons x rest _ =>
    intro b b' hbb hall
    have hx : b' ≤ x := hall x (by simp)
    simp only [pickGreedy]
    rw [if_pos (by omega : b ≤ x), if_pos hx]

theorem pickGreedy_filter_ge {L : Nat} :
    ∀ (xs : List Nat) (b b' : Nat), b ≤ b' →
    pickGreedy L b' (xs.filter (fun x => decide (b ≤ x))) = pickGreedy L b' xs := by
  intro xs
  induction xs with
  | nil => intro b b' _; rfl
  | cons x rest ih =>
    intro b b' hbb
    by_cases hbx : b ≤ x
    · rw [show (x :: rest).filter (fun x => decide (b ≤ x))
            = x :: rest.filter (fun x => decide (b ≤ x)) by simp [List.filter, hbx]]
      simp only [pickGreedy]
      by_cases hb'x : b' ≤ x
      · rw [if_pos hb'x, if_pos hb'x]
        rw [ih b (x + max L 1) (by omega)]
      · rw [if_neg hb'x, if_neg hb'x]
        exact ih b b' hbb
    · rw [show (x :: rest).filter (fun x => decide (b ≤ x))
            = rest.filter (fun x => decide (b ≤ x)) by simp [List.filter, hbx]]
      rw [ih b b' hbb]
      simp only [pickGreedy]
      rw [if_neg (by omega : ¬ b' ≤ x)]

theorem scanMatches_eq_pickGreedy_nil :
    ∀ (s : List Char) (i : Nat),
    scanMatches [] s i 0 = pickGreedy 0 i (allOccAux [] i s) := by
  intro s
  induction s with
  | nil =>
    intro i
    simp [scanMatches, allOccAux, pickGreedy, List.isPrefixOf]
  | cons c t ih =>
    intro i
    rw [scanMatches_cons]
    rw [if_neg (by omega : ¬ (0 : Nat) ≠ 0), if_pos (by simp : ([] : List Char).isEmpty = true)]
    have hocc : allOccAux [] i (c :: t) = i :: allOccAux [] (i + 1) t := by
      simp [allOccAux, List.isPrefixOf]
    rw [hocc]
    simp only [pickGreedy]
    rw [if_pos (Nat.le_refl i)]
    rw [ih (i + 1)]
    norm_num

theorem scanMatches_eq_pickGreedy {pat : List Char} (hpat : pat ≠ []) :
    ∀ (n : Nat) (s : List Char), s.length ≤ n → ∀ i,
    scanMatches pat s i 0 = pickGreedy pat.length i (allOccAux pat i s) := by
  have hemp : pat.isEmpty = false := by
    cases pat with
    | nil => exact absurd rfl hpat
    | cons a b => simp
  have hL : 1 ≤ pat.length := by
    cases pat with
    | nil => exact absurd rfl hpat
    | cons a b => simp
  have h1 : pat.isPrefixOf ([] : List Char) = false := by
    cases pat with
    | nil => exact absurd rfl hpat
    | cons a b => rfl
  intro n
  induction n with
  | zero =>
    intro s hs i
    have : s = [] := List.length_eq_zero.mp (by omega)
    subst this
    simp [scanMatches, allOccAux, hemp, h1, pickGreedy]
  | succ n ih =>
    intro s hs i
    cases s with
    | nil =>
      simp [scanMatches, allOccAux, hemp, h1, pickGreedy]
    | cons c t =>
      rw [scanMatches_cons]
      rw [if_neg (by omega : ¬ (0 : Nat) ≠ 0), if_neg (by simp [hemp])]
      by_cases hp : pat.isPrefixOf (c :: t)
      · rw [if_pos hp]
        have hlen : pat.length - 1 ≤ t.length := by
          have := ((isPrefixOf_iff _ _).mp hp).length_le
          simp at this
          omega
        rw [scanMatches_skip_drop hpat t (i + 1) (pat.length - 1) hlen]
        have harith : i + 1 + (pat.length - 1) = i + pat.length := by omega
        rw [harith]
        rw [ih (t.drop (pat.length - 1)) (by simp at hs ⊢; omega) (i + pat.length)]
        have hocc : allOccAux pat i (c :: t) = i :: allOccAux pat (i + 1) t := by
          simp [allOccAux, hp]
        rw [hocc]
        simp only [pickGreedy]
        rw [if_pos (Nat.le_refl i)]
        rw [show max pat.length 1 = pat.length by omega]
        congr 1
        rw [← pickGreedy_filter_ge (allOccAux pat (i + 1) t) (i + pat.length) (i + pat.length)
              (Nat.le_refl _)]
        rw [allOccAux_filter_ge hpat t (i + 1) (i + pat.length) (by omega)]
        rw [show i + pat.length - (i + 1) = pat.length - 1 by omega]
      · rw [if_neg (by simp [hp])]
        rw [ih t (by simp at hs; omega) (i + 1)]
        have hocc : allOccAux pat i (c :: t) = allOccAux pat (i + 1) t := by
          simp [allOccAux, hp]
        rw [hocc]
        exact (pickGreedy_mono_bound (allOccAux pat (i + 1) t) i (i + 1) (by omega)
          (fun x hx => allOccAux_lower_bound t (i + 1) x hx)).symm

/-- The accepting loop is a take-three of the summary-filtered windows, with
trimming applied to the accepted windows. -/
theorem acceptLoop_eq_filter_take (content summary : List Char) :
    ∀ (ms : List Nat) (acc : List (List Char)), acc.length ≤ 3 →
    acceptLoop content summary ms acc =
      acc ++ (((ms.map (contextWindow content)).filter
          (fun w => !(isSubstring w summary))).take (3 - acc.length)).map pyStrip := by
  intro ms
  induction ms with
  | nil => intro acc _; simp [acceptLoop]
  | cons m rest ih =>
    intro acc hacc
    by_cases h3 : acc.length = 3
    · simp [acceptLoop, h3]
    · have hlt : acc.length < 3 := by omega
      simp only [acceptLoop, if_neg h3, List.map_cons]
      by_cases hw : isSubstring (contextWindow content m) summary
      · rw [if_pos hw, ih acc hacc]
        rw [show (((contextWindow content m :: rest.map (contextWindow content)).filter
            (fun w => !(isSubstring w summary)))) = ((rest.map (contextWindow content)).filter
            (fun w => !(isSubstring w summary))) by simp [List.filter, hw]]
      · rw [if_neg hw, ih (acc ++ [pyStrip (contextWindow content m)]) (by simp; omega)]
        rw [show (((contextWindow content m :: rest.map (contextWindow content)).filter
            (fun w => !(isSubstring w summary)))) = contextWindow content m ::
            ((rest.map (contextWindow content)).filter
            (fun w => !(isSubstring w summary))) by simp [List.filter, hw]]
        rw [show 3 - acc.length = (3 - (acc ++ [pyStrip (contextWindow content m)]).length) + 1
            by simp; omega]
        rw [List.take_succ_cons, List.map_cons]
        simp

/-- When the pattern occurs nowhere in the subject, the scan returns nothing. -/
theorem scanMatches_no_occ {pat : List Char} :
    ∀ (s : List Char), (∀ j, ¬ pat <+: s.drop j) → ∀ i, scanMatches pat s i 0 = [] := by
  intro s
  induction s with
  | nil =>
    intro h i
    have hpat : pat ≠ [] := fun hnil => h 0 (by simp [hnil])
    have hemp : pat.isEmpty = false := by
      cases pat with
      | nil => exact absurd rfl hpat
      | cons a b => rfl
    simp [scanMatches, hemp]
  | cons c t ih =>
    intro h i
    have hpat : pat ≠ [] := fun hnil => h 0 (by simp [hnil])
    have hemp : pat.isEmpty = false := by
      cases pat with
      | nil => exact absurd rfl hpat
      | cons a b => rfl
    rw [scanMatches_cons]
    rw [if_neg (by omega : ¬ (0 : Nat) ≠ 0), if_neg (by simp [hemp])]
    have hnotp : ¬ pat <+: (c :: t) := by simpa using h 0
    have hp : pat.isPrefixOf (c :: t) = false := by
      cases hb : pat.isPrefixOf (c :: t) with
      | false => rfl
      | true => exact absurd ((isPrefixOf_iff _ _).mp hb) hnotp
    rw [if_neg (by simp [hp])]
    exact ih (fun j => by simpa using h (j + 1)) (i + 1)

theorem pyIndex_natCast (n k : Nat) : pyIndex n (k : Int) = min k n := by
  simp [pyIndex, Int.toNat_ofNat]

theorem take_pre (l : List Char) (n : Nat) : l.take n <+: l :=
  List.take_prefix n l

/-- A prefix of length at most `n` survives `take n`. -/
theorem prefix_take_of_le {p l : List Char} {n : Nat}
    (h : p <+: l) (hn : p.length ≤ n) : p <+: l.take n := by
  rcases h with ⟨r, rfl⟩
  rw [List.take_append_eq_append_take, List.take_of_length_le hn]
  exact List.prefix_append p (r.take (n - p.length))

/-- An occurrence of `seg` at offset `i`, wholly inside the interval
`[a', b')`, is still an occurrence (at offset `i - a'`) in the sublist
`(s.take b').drop a'`. -/
theorem occ_in_slice {seg s : List Char} {i a' b' : Nat}
    (h : seg <+: s.drop i) (ha : a' ≤ i) (hb : i + seg.length ≤ b') :
    seg <+: ((s.take b').drop a').drop (i - a') := by
  rw [List.drop_drop, show a' + (i - a') = i by omega]
  rw [List.drop_take]
  exact prefix_take_of_le h (by omega)

theorem pre_map (f : Char → Char) {p l : List Char} (h : p <+: l) :
    p.map f <+: l.map f := by
  rcases h with ⟨r, rfl⟩
  exact ⟨r.map f, by simp⟩

theorem replNl_eq_self {l : List Char} (h : '\n' ∉ l) : replNl l = l := by
  induction l with
  | nil => rfl
  | cons c t ih =>
    have hc : c ≠ '\n' := fun hc => h (by simp [hc])
    have ht := ih (fun hm => h (by simp [hm]))
    simp only [replNl, List.map_cons] at ht ⊢
    rw [if_neg hc, ht]

theorem pyIndex_zero (n : Nat) : pyIndex n 0 = 0 := by
  simp [pyIndex]

theorem length_replNl (l : List Char) : (replNl l).length = l.length := by
  simp [replNl]

/-- The marked string decomposes around the first occurrence of the excerpt. -/
theorem marked_decomp {context e : List Char} (he : e ≠ []) {q : Nat}
    (hq : firstIdxOf e context = some q) :
    replaceAll e (BOLD_SEQUENCE_START ++ e ++ BOLD_SEQUENCE_END) context
      = context.take q ++ ((BOLD_SEQUENCE_START ++ e ++ BOLD_SEQUENCE_END) ++
          replaceAll e (BOLD_SEQUENCE_START ++ e ++ BOLD_SEQUENCE_END)
            (context.drop (q + e.length))) := by
  rw [replaceAll_first_occ _ he hq]
  simp [List.append_assoc]

/-- The first occurrence of the excerpt lies within `q`'s take of the string. -/
theorem firstIdxOf_occ_len {pat s : List Char} {q : Nat} (hpat : pat ≠ [])
    (hq : firstIdxOf pat s = some q) : q + pat.length ≤ s.length := by
  have h1 := (firstIdxOf_isOcc hq).length_le
  rw [List.length_drop] at h1
  have h2 : 1 ≤ pat.length := by
    cases pat with
    | nil => exact absurd rfl hpat
    | cons a b => simp
  omega

/-- In the marked string, the first occurrence of a non-empty excerpt free of
the escape character lies strictly after the original offset `q` and at most
4 characters (the bold marker) beyond it. -/
theorem marked_firstIdx_bounds {context e : List Char} (he : e ≠ [])
    (hesc : '\x1b' ∉ e) {q : Nat} (hq : firstIdxOf e context = some q) :
    ∃ m, firstIdxOf e
        (replaceAll e (BOLD_SEQUENCE_START ++ e ++ BOLD_SEQUENCE_END) context) = some m
      ∧ q + 1 ≤ m ∧ m ≤ q + 4 := by
  have hL : 1 ≤ e.length := by
    cases e with
    | nil => exact absurd rfl he
    | cons a b => simp
  have hqlen : q + e.length ≤ context.length := firstIdxOf_occ_len he hq
  have htakeq : (context.take q).length = q := by
    rw [List.length_take]
    omega
  set R : List Char := BOLD_SEQUENCE_START ++ e ++ BOLD_SEQUENCE_END with hR
  set tail : List Char := replaceAll e R (context.drop (q + e.length)) with htail
  have hM : replaceAll e R context = context.take q ++ (R ++ tail) := marked_decomp he hq
  set M : List Char := replaceAll e R context with hMdef
  have hdropq : M.drop q = R ++ tail := by
    rw [hM]
    exact List.drop_left' htakeq
  have hdropq4 : M.drop (q + 4) = e ++ (BOLD_SEQUENCE_END ++ tail) := by
    have hM4 : M = (context.take q ++ BOLD_SEQUENCE_START) ++ (e ++ (BOLD_SEQUENCE_END ++ tail)) := by
      rw [hM, hR]
      simp [List.append_assoc]
    rw [hM4]
    refine List.drop_left' ?_
    rw [List.length_append, htakeq]
    rfl
  have hocc4 : e <+: M.drop (q + 4) := by
    rw [hdropq4]
    exact List.prefix_append e (BOLD_SEQUENCE_END ++ tail)
  rcases firstIdxOf_le_occ hocc4 with ⟨m, hm, hm4⟩
  refine ⟨m, hm, ?_, hm4⟩
  by_contra hcon
  have hmq : m ≤ q := by omega
  have hoccm : e <+: M.drop m := firstIdxOf_isOcc hm
  by_cases hsplit : m + e.length ≤ q
  · -- the occurrence would lie wholly before the marker, hence inside `context`
    have htakeM : M.take q = context.take q := by
      rw [hM]
      exact List.take_left' htakeq
    have h1 : e <+: (M.drop m).take (q - m) := prefix_take_of_le hoccm (by omega)
    have h2 : (M.take q).drop m = (M.drop m).take (q - m) := List.drop_take q m M
    have h3 : e <+: (context.take q).drop m := by
      rw [← htakeM, h2]
      exact h1
    have h4 : (context.take q).drop m = (context.drop m).take (q - m) :=
      List.drop_take q m context
    have h5 : e <+: context.drop m := by
      rw [h4] at h3
      exact h3.trans (take_pre (context.drop m) (q - m))
    have := firstIdxOf_least hq m h5
    omega
  · -- the occurrence would overlap the bold marker, forcing an escape char in `e`
    have hlt : q - m < e.length := by omega
    rcases hoccm with ⟨r, hr⟩
    have hdq : M.drop q = e.drop (q - m) ++ r.drop (q - m - e.length) := by
      have : M.drop q = (M.drop m).drop (q - m) := by
        rw [List.drop_drop, show m + (q - m) = q by omega]
      rw [this, ← hr, List.drop_append_eq_append_drop]
    rcases hcons : e.drop (q - m) with _ | ⟨x, xs⟩
    · have : e.length - (q - m) = 0 := by
        have := congrArg List.length hcons
        simpa using this
      omega
    · have hx : x ∈ e := by
        have : x ∈ e.drop (q - m) := by
          rw [hcons]
          simp
        exact List.drop_subset _ _ this
      have hdq2 : M.drop q = '\x1b' :: (('[' :: ('1' :: ('m' :: (e ++ BOLD_SEQUENCE_END ++ tail))))) := by
        rw [hdropq, hR]
        simp [BOLD_SEQUENCE_START, List.append_assoc]
      rw [hdq, hcons] at hdq2
      have : x = '\x1b' := by
        have := congrArg (fun l => l.head?) hdq2
        simpa using this
      exact hesc (this ▸ hx)

/-- Length of the marked string. -/
theorem marked_length_ge {context e : List Char} (he : e ≠ []) {q : Nat}
    (hq : firstIdxOf e context = some q) :
    q + e.length + 8 ≤
      (replaceAll e (BOLD_SEQUENCE_START ++ e ++ BOLD_SEQUENCE_END) context).length := by
  have hqlen : q + e.length ≤ context.length := firstIdxOf_occ_len he hq
  rw [marked_decomp he hq]
  simp only [List.length_append, List.length_take]
  have h4 : (BOLD_SEQUENCE_START).length = 4 := rfl
  have h4' : (BOLD_SEQUENCE_END).length = 4 := rfl
  rw [h4, h4']
  omega

/-- The whole marked block occurs at offset `q` in the marked string. -/
theorem marked_block_at_q {context e : List Char} (he : e ≠ []) {q : Nat}
    (hq : firstIdxOf e context = some q) :
    (BOLD_SEQUENCE_START ++ e ++ BOLD_SEQUENCE_END) <+:
      (replaceAll e (BOLD_SEQUENCE_START ++ e ++ BOLD_SEQUENCE_END) context).drop q := by
  have hqlen : q + e.length ≤ context.length := firstIdxOf_occ_len he hq
  have htakeq : (context.take q).length = q := by
    rw [List.length_take]
    omega
  rw [marked_decomp he hq, List.drop_left' htakeq]
  exact List.prefix_append _ _

theorem take_min_length (l : List Char) (k : Nat) : l.take (min k l.length) = l.take k := by
  rcases Nat.le_total k l.length with h | h
  · rw [Nat.min_eq_left h]
  · rw [Nat.min_eq_right h, List.take_length, List.take_of_length_le h]

/-- On a plain (star-free) atom sequence the matcher is the literal test. -/
theorem matchAtoms_plain (pat : List Char) :
    ∀ s, matchAtoms (plainAtoms pat) s =
      if pat.isPrefixOf s then some pat.length else none := by
  induction pat with
  | nil =>
    intro s
    simp [plainAtoms, matchAtoms, List.isPrefixOf]
  | cons c pt ih =>
    intro s
    cases s with
    | nil =>
      simp [plainAtoms, matchAtoms]
    | cons x xs =>
      have hpre : (c :: pt).isPrefixOf (x :: xs) = (c == x && pt.isPrefixOf xs) := rfl
      simp only [plainAtoms, List.map_cons, matchAtoms, if_neg (by simp : ¬ false = true)]
      show (if x = c then (matchAtoms (plainAtoms pt) xs).map (· + 1) else none) = _
      rw [hpre, ih xs]
      by_cases hx : x = c
      · subst hx
        simp only [beq_self_eq_true, Bool.true_and, if_pos rfl]
        by_cases hp : pt.isPrefixOf xs
        · rw [if_pos hp, if_pos hp]
          simp
        · rw [if_neg hp, if_neg hp]
          simp
      · rw [if_neg hx]
        rw [if_neg (by simp [beq_iff_eq]; intro h; exact absurd h.symm hx)]

theorem reScanAux_nil_eq (atoms : List (Char × Bool)) (i skip : Nat) :
    reScanAux atoms [] i skip =
      if skip = 0 then
        match matchAtoms atoms [] with
        | some _ => [i]
        | none => []
      else [] := rfl

theorem reScanAux_cons_eq (atoms : List (Char × Bool)) (c : Char) (t : List Char)
    (i skip : Nat) :
    reScanAux atoms (c :: t) i skip =
      if skip ≠ 0 then reScanAux atoms t (i + 1) (skip - 1)
      else
        match matchAtoms atoms (c :: t) with
        | none => reScanAux atoms t (i + 1) 0
        | some 0 => i :: reScanAux atoms t (i + 1) 0
        | some (L + 1) => i :: reScanAux atoms t (i + 1) L := rfl

/-- On a plain atom sequence the `re.finditer` scan is the literal scan. -/
theorem reScanAux_plain (pat : List Char) :
    ∀ (s : List Char) (i skip : Nat),
    reScanAux (plainAtoms pat) s i skip = scanMatches pat s i skip := by
  intro s
  induction s with
  | nil =>
    intro i skip
    rw [reScanAux_nil_eq, matchAtoms_plain]
    cases pat with
    | nil =>
      simp [scanMatches, List.isPrefixOf]
    | cons p pt =>
      have : (p :: pt).isPrefixOf ([] : List Char) = false := rfl
      rw [this]
      simp [scanMatches]
  | cons c t ih =>
    intro i skip
    rw [reScanAux_cons_eq, scanMatches_cons, matchAtoms_plain]
    cases skip with
    | succ k =>
      rw [if_pos (by omega : k + 1 ≠ 0), if_pos (by omega : k + 1 ≠ 0)]
      rw [show k + 1 - 1 = k from rfl, ih]
    | zero =>
      rw [if_neg (by omega : ¬ (0 : Nat) ≠ 0), if_neg (by omega : ¬ (0 : Nat) ≠ 0)]
      cases pat with
      | nil =>
        rw [if_pos (by rfl : ([] : List Char).isPrefixOf (c :: t) = true)]
        rw [if_pos (by rfl : ([] : List Char).isEmpty = true)]
        show i :: reScanAux (plainAtoms []) t (i + 1) 0 = i :: scanMatches [] t (i + 1) 0
        rw [ih]
      | cons p pt =>
        rw [if_neg (by simp : ¬ (p :: pt).isEmpty = true)]
        by_cases hp : (p :: pt).isPrefixOf (c :: t) = true
        · rw [if_pos hp, if_pos hp]
          show i :: reScanAux (plainAtoms (p :: pt)) t (i + 1) pt.length
              = i :: scanMatches (p :: pt) t (i + 1) ((p :: pt).length - 1)
          rw [ih]
          rfl
        · rw [if_neg hp, if_neg hp]
          show reScanAux (plainAtoms (p :: pt)) t (i + 1) 0
              = scanMatches (p :: pt) t (i + 1) 0
          rw [ih]

/-- A metacharacter-free pattern parses to its plain atom sequence. -/
theorem parsePattern_plain :
    ∀ (l : List Char), l.all (fun c => !(isRegexMeta c)) = true →
    parsePattern l = some (plainAtoms l) := by
  intro l
  induction l with
  | nil =>
    intro _
    simp [parsePattern, plainAtoms]
  | cons c rest ih =>
    intro hall
    rw [List.all_cons] at hall
    have hc : isRegexMeta c = false := by
      rcases Bool.and_eq_true _ _ |>.mp hall with ⟨h1, -⟩
      simpa using h1
    have hrest : rest.all (fun c => !(isRegexMeta c)) = true :=
      (Bool.and_eq_true _ _ |>.mp hall).2
    cases rest with
    | nil =>
      simp [parsePattern, hc, plainAtoms]
    | cons r rest' =>
      have hr : isRegexMeta r = false := by
        rw [List.all_cons] at hrest
        rcases Bool.and_eq_true _ _ |>.mp hrest with ⟨h1, -⟩
        simpa using h1
      have hrstar : r ≠ '*' := by
        intro h
        rw [h] at hr
        simp [isRegexMeta] at hr
      rw [show parsePattern (c :: r :: rest')
            = if isRegexMeta c then none
              else if r = '*' then (parsePattern rest').map (fun atoms => (c, true) :: atoms)
              else (parsePattern (r :: rest')).map (fun atoms => (c, false) :: atoms) from rfl]
      rw [if_neg (by simp [hc]), if_neg hrstar, ih hrest]
      simp [plainAtoms]

/-- For a metacharacter-free term the recorded offsets are the literal
non-overlapping scan. -/
theorem contextMatches_of_literal {term : List Char} (hlit : isRegexLiteral term = true)
    (content : List Char) :
    contextMatches content term = findMatches (pyLower term) (pyLower content) := by
  have hparse : parsePattern (pyLower term) = some (plainAtoms (pyLower term)) :=
    parsePattern_plain _ hlit
  rw [contextMatches, hparse]
  show reFinditer (plainAtoms (pyLower term)) (pyLower content) = _
  rw [reFinditer, findMatches]
  exact reScanAux_plain _ _ _ _

/-! ### The claims -/

/-- Claim C1: in `generate_context`, the excerpt window around an occurrence at
offset `s` is `body[s-300 : s+300]` when `s ≥ 300`, and `body[0 : s+s]`
(mirrored, not clamped) when `s < 300`. -/
theorem contextWindow_matches_spec (content : List Char) (m : Nat) :
    (300 ≤ m → contextWindow content m =
      pySlice content ((m : Int) - 300) ((m : Int) + 300)) ∧
    (m < 300 → contextWindow content m = pySlice content 0 ((m : Int) + (m : Int))) := by
  constructor
  · intro h
    rcases Nat.lt_or_ge 300 m with h' | h'
    · rw [contextWindow, if_pos (by simpa [CONTEXT_HALF_SIZE] using h')]
      norm_num [CONTEXT_HALF_SIZE]
    · have hm : m = 300 := by omega
      subst hm
      rw [contextWindow, if_neg (by simp [CONTEXT_HALF_SIZE])]
      norm_num
  · intro h
    rw [contextWindow, if_neg (by simp [CONTEXT_HALF_SIZE]; omega)]

/-- Witness for C1 at the boundary offset 300. -/
theorem contextWindow_matches_spec_witness :
    300 ≤ 300 ∧ contextWindow ['a'] 300 =
      pySlice ['a'] ((300 : Int) - 300) ((300 : Int) + 300) :=
  ⟨by decide, (contextWindow_matches_spec ['a'] 300).1 (by decide)⟩

/-- Claim C2 (counterexample): the code tests the untrimmed window for
containment in the summary and only trims on acceptance; the claim's
trim-first order produces a different context on this page. -/
theorem generate_context_trim_order_cex :
    generate_context ⟨[' ', 'X', ' ', 'q'], ['X', ' ', 'q']⟩ ['q'] ≠
      generate_context_claimOrder ⟨[' ', 'X', ' ', 'q'], ['X', ' ', 'q']⟩ ['q'] ∧
    generate_context ⟨[' ', 'X', ' ', 'q'], ['X', ' ', 'q']⟩ ['q'] =
      ['X', ' ', 'q', ' ', '[', '.', '.', '.', ']', ' ', 'X', ' ', 'q'] ∧
    generate_context_claimOrder ⟨[' ', 'X', ' ', 'q'], ['X', ' ', 'q']⟩ ['q'] =
      ['X', ' ', 'q'] :=
  ⟨by decide, by decide, by decide⟩

/-- Claim C2 (amended): the untrimmed window is tested for containment in the
summary; windows that pass are trimmed when accepted, and at most three are
accepted. -/
theorem topThreeContexts_check_untrimmed (page : Page) (term : List Char) :
    topThreeContexts page term =
      ((((contextMatches page.content term).map (contextWindow page.content)).filter
        (fun w => !(isSubstring w page.summary))).take 3).map pyStrip := by
  rw [topThreeContexts, acceptLoop_eq_filter_take _ _ _ [] (by simp)]
  simp

/-- Claim C5 (counterexample): `re.finditer` records non-overlapping matches
of a regex, not every literal occurrence.  On body "aaa" and term "aa" the
code records only offset 0 while the literal occurrences are at 0 and 1; and
the regex term "x*" is recorded at offsets 0, 1, 2 of body "ab" although it
has no literal occurrence at all. -/
theorem contextMatches_overlap_cex :
    contextMatches ['a', 'a', 'a'] ['a', 'a'] = [0] ∧
    caseInsensitiveOccurrences ['a', 'a', 'a'] ['a', 'a'] = [0, 1] ∧
    contextMatches ['a', 'a', 'a'] ['a', 'a'] ≠
      caseInsensitiveOccurrences ['a', 'a', 'a'] ['a', 'a'] ∧
    contextMatches ['a', 'b'] ['x', '*'] = [0, 1, 2] ∧
    caseInsensitiveOccurrences ['a', 'b'] ['x', '*'] = [] :=
  ⟨by decide, by decide, by decide, by decide, by decide⟩

/-- Claim C5 (amended): for search terms free of regex metacharacters (which
`re` therefore matches as literal strings), the recorded offsets are the
greedy left-to-right selection of non-overlapping case-insensitive literal
occurrences of the term. -/
theorem contextMatches_eq_pickGreedy (content term : List Char)
    (hlit : isRegexLiteral term = true) :
    contextMatches content term =
      pickGreedy (pyLower term).length 0 (caseInsensitiveOccurrences content term) := by
  rw [contextMatches_of_literal hlit, findMatches, caseInsensitiveOccurrences, allOccurrences]
  by_cases h : pyLower term = []
  · rw [h]
    simpa using scanMatches_eq_pickGreedy_nil (pyLower content) 0
  · exact scanMatches_eq_pickGreedy h (pyLower content).length (pyLower content)
      (Nat.le_refl _) 0

/-- Witness for the amended C5 on a metacharacter-free term. -/
theorem contextMatches_eq_pickGreedy_witness :
    isRegexLiteral ['a', 'a'] = true ∧
    contextMatches ['a', 'a', 'a'] ['a', 'a'] =
      pickGreedy (pyLower ['a', 'a']).length 0
        (caseInsensitiveOccurrences ['a', 'a', 'a'] ['a', 'a']) :=
  ⟨by decide, contextMatches_eq_pickGreedy ['a', 'a', 'a'] ['a', 'a'] (by decide)⟩

/-- Claim C6: the context never exceeds 4000 characters, being the hard
truncation of the joined string to its first 4000 characters. -/
theorem generate_context_length_le (page : Page) (term : List Char) :
    (generate_context page term).length ≤ 4000 ∧
    generate_context page term = (List.intercalate CONTEXT_DIVIDER
      (pyStrip page.summary :: topThreeContexts page term)).take 4000 := by
  constructor
  · rw [generate_context, CONTEXT_CHAR_LIMIT, List.length_take]
    omega
  · rfl

/-- Claim C7 (counterexample): the term is a regex pattern.  The term "x*" has
zero occurrences in the body "ab" as a literal string, yet `re.finditer`
yields zero-width matches at offsets 0, 1, 2 and the context gains two "ab"
excerpts beyond the summary (the zero-width window at offset 0 is the empty
string, contained in every summary, and is skipped). -/
theorem generate_context_zero_occ_cex :
    caseInsensitiveOccurrences ['a', 'b'] ['x', '*'] = [] ∧
    generate_context ⟨['a', 'b'], ['s']⟩ ['x', '*'] ≠ (pyStrip ['s']).take 4000 ∧
    generate_context ⟨['a', 'b'], ['s']⟩ ['x', '*'] =
      ['s', ' ', '[', '.', '.', '.', ']', ' ', 'a', 'b',
       ' ', '[', '.', '.', '.', ']', ' ', 'a', 'b'] :=
  ⟨by decide, by decide, by decide⟩

/-- Claim C7 (amended): for a search term free of regex metacharacters (which
`re` matches as a literal string) with no occurrence in the body, the context
is the stripped summary alone (truncated to 4000), with no divider; and for
every term at most three excerpts are accepted. -/
theorem generate_context_no_occ_and_cap (page : Page) (term : List Char) :
    (topThreeContexts page term).length ≤ 3 ∧
    (isRegexLiteral term = true →
      (∀ j, ¬ pyLower term <+: (pyLower page.content).drop j) →
      generate_context page term = (pyStrip page.summary).take 4000) := by
  constructor
  · rw [topThreeContexts, acceptLoop_eq_filter_take _ _ _ [] (by simp)]
    simp only [List.nil_append, List.length_map, List.length_take, Nat.sub_zero]
    omega
  · intro hlit h
    have hmatches : contextMatches page.content term = [] := by
      rw [contextMatches_of_literal hlit, findMatches]
      exact scanMatches_no_occ _ h 0
    rw [generate_context, topThreeContexts, hmatches]
    simp [acceptLoop, List.intercalate, CONTEXT_CHAR_LIMIT]

/-- Witness for the amended C7 on a one-character body with an absent,
metacharacter-free term. -/
theorem generate_context_no_occ_and_cap_witness :
    isRegexLiteral ['z'] = true ∧
    generate_context ⟨['a'], ['b']⟩ ['z'] = (pyStrip ['b']).take 4000 :=
  ⟨by decide, (generate_context_no_occ_and_cap ⟨['a'], ['b']⟩ ['z']).2 (by decide) (by
    intro j hcon
    have hlen := hcon.length_le
    rw [List.length_drop] at hlen
    cases j with
    | zero => exact absurd hcon (by decide)
    | succ j' =>
      simp [pyLower] at hlen)⟩

/-- Claim C8: with a null excerpt, or an excerpt that is not a substring of
the context, highlighting returns the context with newlines replaced by
spaces and no other change. -/
theorem highlight_none_or_absent (context : List Char) :
    generate_context_highlighted context none = replNl context ∧
    ∀ e, isSubstring e context = false →
      generate_context_highlighted context (some e) = replNl context := by
  refine ⟨rfl, ?_⟩
  intro e he
  simp [generate_context_highlighted, he]

/-- Witness for C8 with an absent excerpt. -/
theorem highlight_none_or_absent_witness :
    isSubstring ['z'] ['a', '\n', 'b'] = false ∧
    generate_context_highlighted ['a', '\n', 'b'] (some ['z']) = replNl ['a', '\n', 'b'] :=
  ⟨by decide, (highlight_none_or_absent ['a', '\n', 'b']).2 ['z'] (by decide)⟩

/-- Claim C9: `generate_excerpt` returns null exactly when the sanitized model
output is not a (case-sensitive) substring of the context, and any non-null
result is a substring of the context. -/
theorem generate_excerpt_guard (modelText context : List Char) :
    (isSubstring (sanitize_response modelText) context = false →
      generate_excerpt modelText context = none) ∧
    (∀ e, generate_excerpt modelText context = some e → isSubstring e context = true) := by
  constructor
  · intro h
    simp [generate_excerpt, h]
  · intro e he
    by_cases h : isSubstring (sanitize_response modelText) context = true
    · simp only [generate_excerpt, h, if_true] at he
      rw [← Option.some_inj.mp he]
      exact h
    · simp only [generate_excerpt, if_neg h] at he
      cases he

/-- Witness for C9, one absent and one present excerpt. -/
theorem generate_excerpt_guard_witness :
    isSubstring (sanitize_response ['z']) ['a'] = false ∧
    generate_excerpt ['z'] ['a'] = none ∧
    generate_excerpt ['b'] ['a', 'b'] = some ['b'] ∧
    isSubstring ['b'] ['a', 'b'] = true :=
  ⟨by decide, (generate_excerpt_guard ['z'] ['a']).1 (by decide),
   by decide, (generate_excerpt_guard ['b'] ['a', 'b']).2 ['b'] (by decide)⟩

/-- Claim C10: with the empty excerpt (which `generate_excerpt` can return),
highlighting inserts no markers and returns the first 200 characters of the
context, newlines replaced by spaces. -/
theorem highlight_empty_excerpt_window (context : List Char) :
    generate_context_highlighted context (some []) = replNl (context.take 200) ∧
    generate_excerpt [] context = some [] := by
  have hsub : isSubstring [] context = true := by
    simp [isSubstring, firstIdxOf_nil_pat]
  constructor
  · have hfind : pyFind [] context = 0 := by
      simp [pyFind, firstIdxOf_nil_pat]
    simp only [generate_context_highlighted, hsub, if_true, List.isEmpty_nil, if_pos, hfind]
    rw [if_neg (by norm_num : ¬ (0 : Int) > 200)]
    have : pySlice context 0 ((0 : Int) + ([] : List Char).length + 200) =
        context.take 200 := by
      rw [pySlice]
      norm_num [pyIndex_zero]
      rw [show ((200 : Int)) = ((200 : Nat) : Int) by norm_num, pyIndex_natCast]
      omega
    rw [this]
  · simp [generate_excerpt, sanitize_response, pyStrip, hsub]
/-- Claim C3 (counterexample): for the empty excerpt — a non-null substring of
every context — the code's `if excerpt` truthiness guard skips replacement
entirely, while the claim's procedure would insert markers at every position. -/
theorem highlight_empty_vs_claim_cex :
    isSubstring [] ['a', 'b'] = true ∧
    generate_context_highlighted ['a', 'b'] (some []) = ['a', 'b'] ∧
    claimHighlight ['a', 'b'] [] ≠ ['a', 'b'] :=
  ⟨by decide, by decide, by decide⟩

/-- Claim C3 (amended): for a non-null *and non-empty* excerpt that occurs in
the context, the highlighting equals the claim's procedure: global replacement
by the marked excerpt, then the ±200 window (mirrored below 200) computed over
the post-replacement string. -/
theorem highlight_eq_claim_of_ne_nil (context e : List Char) (he : e ≠ [])
    (hsub : isSubstring e context = true) :
    generate_context_highlighted context (some e) = claimHighlight context e := by
  have hemp : e.isEmpty = false := by
    cases e with
    | nil => exact absurd rfl he
    | cons a b => rfl
  simp only [generate_context_highlighted, claimHighlight, hsub, if_true, hemp,
    Bool.false_eq_true, if_false]
  set M := replaceAll e (BOLD_SEQUENCE_START ++ e ++ BOLD_SEQUENCE_END) context with hM
  set m := pyFind e M with hm
  rcases lt_trichotomy m 200 with hc | hc | hc
  · rw [if_neg (by omega : ¬ m > 200), if_pos hc]
  · rw [if_neg (by omega : ¬ m > 200), if_neg (by omega : ¬ m < 200)]
    rw [hc]
    norm_num
  · rw [if_pos hc, if_neg (by omega : ¬ m < 200)]

/-- Witness for the amended C3. -/
theorem highlight_eq_claim_of_ne_nil_witness :
    (['b'] : List Char) ≠ [] ∧ isSubstring ['b'] ['a', 'b', 'c'] = true ∧
    generate_context_highlighted ['a', 'b', 'c'] (some ['b']) =
      claimHighlight ['a', 'b', 'c'] ['b'] :=
  ⟨by decide, by decide,
   highlight_eq_claim_of_ne_nil ['a', 'b', 'c'] ['b'] (by decide) (by decide)⟩

/-- A block occurring at offset `q` of `M`, wholly inside the window
`[a', b')`, still occurs in the newline-replaced slice. -/
theorem slice_keeps_block {M R : List Char} {q a' b' : Nat}
    (hocc : R <+: M.drop q) (hnlR : '\n' ∉ R) (ha : a' ≤ q) (hb : q + R.length ≤ b') :
    isSubstring R (replNl ((M.take b').drop a')) = true := by
  have h1 := occ_in_slice hocc ha hb
  refine (isSubstring_iff_occ _ _).mpr ⟨q - a', ?_⟩
  have h2 : (replNl ((M.take b').drop a')).drop (q - a')
      = replNl (((M.take b').drop a').drop (q - a')) := by
    simp [replNl, List.map_drop]
  rw [h2, show R = replNl R from (replNl_eq_self hnlR).symm]
  exact pre_map _ h1

/-- Claim C4 (counterexample): the empty excerpt is a non-null substring of
`"ab"`, yet the returned window contains no marker-wrapped excerpt, because
the code's truthiness guard skips replacement for the empty string. -/
theorem highlight_no_marker_cex :
    isSubstring [] ['a', 'b'] = true ∧
    generate_context_highlighted ['a', 'b'] (some []) = ['a', 'b'] ∧
    isSubstring (BOLD_SEQUENCE_START ++ [] ++ BOLD_SEQUENCE_END)
      (generate_context_highlighted ['a', 'b'] (some [])) = false :=
  ⟨by decide, by decide, by decide⟩

/-- Claim C4 (amended): for a non-empty excerpt, free of the escape character
(so the excerpt cannot be confused with the inserted markers) and of newlines
(which the final replacement would rewrite), that occurs in the context, the
returned window contains the excerpt wrapped in the bold markers, and its
length is at most `len(E) + 400` plus the 8 characters of marker overhead. -/
theorem highlight_contains_marked_excerpt (context e : List Char) (he : e ≠ [])
    (hesc : '\x1b' ∉ e) (hnl : '\n' ∉ e) (hsub : isSubstring e context = true) :
    isSubstring (BOLD_SEQUENCE_START ++ e ++ BOLD_SEQUENCE_END)
        (generate_context_highlighted context (some e)) = true ∧
    (generate_context_highlighted context (some e)).length ≤ e.length + 408 := by
  have hemp : e.isEmpty = false := by
    cases e with
    | nil => exact absurd rfl he
    | cons a b => rfl
  obtain ⟨q, hq⟩ : ∃ q, firstIdxOf e context = some q := Option.isSome_iff_exists.mp hsub
  obtain ⟨m, hm, hm1, hm4⟩ := marked_firstIdx_bounds he hesc hq
  have hMlen := marked_length_ge he hq
  have hblock := marked_block_at_q he hq
  have hRlen : (BOLD_SEQUENCE_START ++ e ++ BOLD_SEQUENCE_END).length = e.length + 8 := by
    simp only [List.length_append]
    rw [show BOLD_SEQUENCE_START.length = 4 from rfl, show BOLD_SEQUENCE_END.length = 4 from rfl]
    omega
  have hnlR : '\n' ∉ (BOLD_SEQUENCE_START ++ e ++ BOLD_SEQUENCE_END) := by
    intro hmem
    simp only [BOLD_SEQUENCE_START, BOLD_SEQUENCE_END, List.mem_append] at hmem
    rcases hmem with (h | h) | h
    · revert h; decide
    · exact hnl h
    · revert h; decide
  simp only [generate_context_highlighted, hsub, if_true, hemp, Bool.false_eq_true, if_false]
  set M := replaceAll e (BOLD_SEQUENCE_START ++ e ++ BOLD_SEQUENCE_END) context with hMdef
  have hfind : pyFind e M = (m : Int) := by
    simp [pyFind, hm]
  rw [hfind]
  by_cases hc : (200 : Int) < (m : Int)
  · have hc' : 200 < m := by exact_mod_cast hc
    rw [if_pos hc]
    have hcast1 : ((m : Int) - 200) = ((m - 200 : Nat) : Int) := by
      push_cast [Nat.cast_sub (by omega : (200 : Nat) ≤ m)]
      ring
    have hcast2 : ((m : Int) + (e.length : Int) + 200) = ((m + e.length + 200 : Nat) : Int) := by
      push_cast
      ring
    rw [hcast1, hcast2, pySlice, pyIndex_natCast, pyIndex_natCast]
    constructor
    · apply slice_keeps_block hblock hnlR
      · have : m - 200 ≤ q := by omega
        omega
      · rw [hRlen]
        omega
    · rw [length_replNl, List.length_drop, List.length_take]
      omega
  · have hc' : m ≤ 200 := by
      have := Int.not_lt.mp hc
      exact_mod_cast this
    rw [if_neg hc]
    have hcast2 : ((m : Int) + (e.length : Int) + 200) = ((m + e.length + 200 : Nat) : Int) := by
      push_cast
      ring
    rw [pySlice, hcast2, pyIndex_natCast, pyIndex_zero]
    constructor
    · apply slice_keeps_block hblock hnlR (Nat.zero_le q)
      rw [hRlen]
      omega
    · rw [length_replNl, List.length_drop, List.length_take]
      omega

/-- Witness for the amended C4 on context "hello" and excerpt "ell". -/
theorem highlight_contains_marked_excerpt_witness :
    ((['e', 'l', 'l'] : List Char) ≠ [] ∧ '\x1b' ∉ (['e', 'l', 'l'] : List Char) ∧
      '\n' ∉ (['e', 'l', 'l'] : List Char) ∧
      isSubstring ['e', 'l', 'l'] ['h', 'e', 'l', 'l', 'o'] = true) ∧
    isSubstring (BOLD_SEQUENCE_START ++ ['e', 'l', 'l'] ++ BOLD_SEQUENCE_END)
        (generate_context_highlighted ['h', 'e', 'l', 'l', 'o'] (some ['e', 'l', 'l'])) = true ∧
    (generate_context_highlighted ['h', 'e', 'l', 'l', 'o'] (some ['e', 'l', 'l'])).length
      ≤ 3 + 408 :=
  ⟨⟨by decide, by decide, by decide, by decide⟩,
   (highlight_contains_marked_excerpt ['h', 'e', 'l', 'l', 'o'] ['e', 'l', 'l']
     (by decide) (by decide) (by decide) (by decide)).1,
   (highlight_contains_marked_excerpt ['h', 'e', 'l', 'l', 'o'] ['e', 'l', 'l']
     (by decide) (by decide) (by decide) (by decide)).2⟩